import Mathlib

/-!
Shallow embedding of the SWE-Agent trajectory-analysis script (`code.py`).

Strings are modelled as `List Char`.  The three classifiers
(`locate_reproduction_code`, `locate_search`, `locate_tool_use`) are embedded
as pure functions over an already-loaded trajectory (the file-system lookup
and JSON loading are external collaborators per the specification).  Python
regular-expression idioms used by the script are rendered as executable
scanning functions over character lists, each documented with the regex it
embeds.
-/

namespace TrajAnalysis

/-- Python's whitespace class `\s` (also the default `str.strip` / `str.split`
character set): space, tab, newline, carriage return, vertical tab, form feed. -/
def isPySpace (c : Char) : Bool :=
  c == ' ' || c == '\t' || c == '\n' || c == '\r' || c == '\x0b' || c == '\x0c'

/-- Python's regex word-character class `\w` (over the ASCII inputs that occur
here): letters, digits and underscore. -/
def isWordChar (c : Char) : Bool :=
  c.isAlpha || c.isDigit || c == '_'

/-- `str.lower` (ASCII). -/
def lowerList (s : List Char) : List Char := s.map Char.toLower

/-- `str.strip()` with no arguments: remove leading and trailing whitespace. -/
def stripChars (s : List Char) : List Char :=
  ((s.dropWhile isPySpace).reverse.dropWhile isPySpace).reverse

/-- Does `pat` occur in `s` starting at index `i`? -/
def occursAtB (pat s : List Char) (i : Nat) : Bool :=
  pat.isPrefixOf (s.drop i)

/-- Python's substring test `pat in s`. -/
def containsSub (pat s : List Char) : Bool :=
  (List.range (s.length + 1)).any (occursAtB pat s)

/-- Index of the first occurrence of `pat` in `s` (`str.find`, as used by
`str.split(sep)`). -/
def findSub (pat s : List Char) : Option Nat :=
  (List.range (s.length + 1)).find? (occursAtB pat s)

/-- `str.split(sep)` for a non-empty separator, with an explicit recursion
bound: repeatedly cut at the first occurrence of `sep` (empty pieces are
kept, as in Python).  Each cut consumes at least `sep.length ≥ 1`
characters, so with initial fuel `s.length` the fuel never runs out (the
fuel-exhausted branch is only ever reached with `s = []`, where it agrees
with the no-occurrence branch). -/
def splitOnSubFuel (sep : List Char) : Nat → List Char → List (List Char)
  | 0, s => [s]
  | fuel + 1, s =>
    match findSub sep s with
    | none => [s]
    | some i => s.take i :: splitOnSubFuel sep fuel (s.drop (i + sep.length))

def splitOnSub (sep s : List Char) : List (List Char) :=
  splitOnSubFuel sep s.length s

/-- First whitespace-delimited word of `s`: `s.split()[0] if s.split() else ''`. -/
def firstWord (s : List Char) : List Char :=
  (s.dropWhile isPySpace).takeWhile (fun c => !isPySpace c)

/-- `os.path.basename` on POSIX: everything after the last `'/'`. -/
def basename (s : List Char) : List Char :=
  (s.reverse.takeWhile (fun c => c != '/')).reverse

/-- `pat.isSuffixOf s`, i.e. `str.endswith`. -/
def endsWithList (pat s : List Char) : Bool := pat.isSuffixOf s

/-- Regex word boundary `\b` placed after a word character ending at index
`n - 1`: satisfied when index `n` is past the end or holds a non-word char. -/
def nonWordAt (s : List Char) (n : Nat) : Bool :=
  match s.drop n with
  | [] => true
  | c :: _ => !isWordChar c

/-- Is the character at index `n` (if any) whitespace?  Used to embed a
trailing `\s` requirement of a pattern. -/
def wsAt (s : List Char) (n : Nat) : Bool :=
  match s.drop n with
  | [] => false
  | c :: _ => isPySpace c

/-- Regex word boundary `\b` placed before a word character at index `i`:
satisfied at the start of the string or after a non-word character. -/
def boundaryBefore (s : List Char) (i : Nat) : Bool :=
  i == 0 || !isWordChar (s.getD (i - 1) ' ')

/-- The literal `str_replace_editor` (the file-editing sub-tool's name). -/
def sreLit : List Char := "str_replace_editor".data

/-- Tail requirement following the operation name in the editor regexes:
`\b` (word boundary) or `\s` (at least one whitespace character). -/
inductive TailReq where
  | wb
  | ws

/-- Embeds `re.search(rf'str_replace_editor\s+{cmd}' + tail, s)` where `tail`
is `\b` or `\s+`.  Since every operation name starts with a non-space
character, the `\s+` run before it is forced to be the maximal whitespace run
following the `str_replace_editor` literal. -/
def editorOpSearch (cmd : List Char) (tail : TailReq) (s : List Char) : Bool :=
  (List.range (s.length + 1)).any (fun i =>
    occursAtB sreLit s i &&
    (let rest := s.drop (i + sreLit.length)
     let k := (rest.takeWhile isPySpace).length
     decide (1 ≤ k) && cmd.isPrefixOf (rest.drop k) &&
     (match tail with
      | TailReq.wb => nonWordAt rest (k + cmd.length)
      | TailReq.ws => wsAt rest (k + cmd.length))))

def viewLit : List Char := "view".data
def createLit : List Char := "create".data
def strReplaceLit : List Char := "str_replace".data
def insertLit : List Char := "insert".data
def undoEditLit : List Char := "undo_edit".data

/-- `code_modification_patterns`: the four regexes
`str_replace_editor\s+str_replace\s+`, `...create\s+`, `...insert\s+`,
`...undo_edit\s+`; a step matching any of them is excluded from search. -/
def modificationOps : List (List Char) := [strReplaceLit, createLit, insertLit, undoEditLit]

def isModification (a : List Char) : Bool :=
  modificationOps.any (fun c => editorOpSearch c TailReq.ws a)

/-- `swe_agent_search_commands = ['find_file', 'search_file', 'search_dir']`. -/
def swe_agent_search_commands : List (List Char) :=
  [r"find_file", r"search_file", r"search_dir"].map String.data

/-- The check `action.startswith(cmd) or f' {cmd}' in action` for each
SWE-Agent search command. -/
def sweSearchHit (a : List Char) : Bool :=
  swe_agent_search_commands.any (fun c => c.isPrefixOf a || containsSub (' ' :: c) a)

/-- Embeds `re.search(rf'\b{c}\s+', s)`: `c` preceded by a word boundary and
followed by at least one whitespace character (every tracked command name
starts and ends with a word character). -/
def bashCmdWs (c s : List Char) : Bool :=
  (List.range (s.length + 1)).any (fun i =>
    boundaryBefore s i && c.isPrefixOf (s.drop i) && wsAt s (i + c.length))

/-- Embeds `re.search(r'\bls$', s)`: `ls` at a word boundary at the very end
of the string (Python's `$` also matches just before a single trailing
newline). -/
def bashLsEnd (s : List Char) : Bool :=
  (List.range (s.length + 1)).any (fun i =>
    boundaryBefore s i && occursAtB ("ls".data) s i &&
    (decide (s.drop (i + 2) = []) || decide (s.drop (i + 2) = ['\n'])))

def gitLit : List Char := "git".data

/-- Embeds `re.search(rf'\bgit\s+{sub}\s+', s)` for `sub` one of
`show`/`log`/`diff` (again the inner `\s+` run is forced to be maximal since
the subcommands start with non-space characters). -/
def bashGitSub (sub s : List Char) : Bool :=
  (List.range (s.length + 1)).any (fun i =>
    boundaryBefore s i && gitLit.isPrefixOf (s.drop i) &&
    (let rest := s.drop (i + gitLit.length)
     let k := (rest.takeWhile isPySpace).length
     decide (1 ≤ k) && sub.isPrefixOf (rest.drop k) && wsAt rest (k + sub.length)))

/-- The command names appearing in `bash_search_patterns` as `\b{c}\s+`. -/
def bashCmdWsNames : List (List Char) :=
  [r"find", r"grep", r"cat", r"ls", r"head", r"tail", r"less", r"more",
   r"wc", r"awk", r"sed", r"rg", r"ag"].map String.data

def gitSubNames : List (List Char) := [r"show", r"log", r"diff"].map String.data

/-- Any of the `bash_search_patterns` regexes matches (the list is scanned
for existence of a match, so the grouping of the `\bls$` and `git` patterns
is immaterial). -/
def bashSearchHit (a : List Char) : Bool :=
  bashCmdWsNames.any (fun c => bashCmdWs c a) || bashLsEnd a ||
    gitSubNames.any (fun c => bashGitSub c a)

/-- The per-step decision of `locate_search`: modification patterns exclude
the step outright; otherwise SWE-Agent search commands, the editor `view`
pattern (`str_replace_editor\s+view\s+`) and the bash search patterns are
tried in turn. -/
def isSearchStep (a : List Char) : Bool :=
  if isModification a then false
  else sweSearchHit a || editorOpSearch viewLit TailReq.ws a || bashSearchHit a

/-- One trajectory step.  The JSON record may lack the `action` or `thought`
key; `none` models an absent field. -/
structure Step where
  action? : Option (List Char)
  thought? : Option (List Char)

/-- `step.get('action', '')` (and the `or ''` guard used by two of the
classifiers, which coincides with it on an absent field). -/
def Step.actionText (s : Step) : List Char := s.action?.getD []

/-- `step.get('thought', '') or ''`. -/
def Step.thoughtText (s : Step) : List Char := s.thought?.getD []

/-- The `for step_idx, step in enumerate(trajectory)` loop that appends
`step_idx` whenever the per-step predicate holds, started at index `n`. -/
def idxFilter (p : Step → Bool) : Nat → List Step → List Nat
  | _, [] => []
  | n, s :: rest => if p s then n :: idxFilter p (n + 1) rest else idxFilter p (n + 1) rest

def searchPred (s : Step) : Bool := isSearchStep s.actionText

/-- `locate_search`, restricted to its core (the trajectory is already
loaded; file lookup is an external collaborator). -/
def locate_search (traj : List Step) : List Nat := idxFilter searchPred 0 traj

/-- `trajectory[i]` (any out-of-range index yields an all-absent step; the
loops never access one). -/
def stepAt (traj : List Step) (i : Nat) : Step := traj.getD i ⟨none, none⟩

/-! ### Reproduction-step classifier (`locate_reproduction_code`) -/

/-- The literal `str_replace_editor create` that starts the create regex. -/
def sreCreateLit : List Char := "str_replace_editor create".data

/-- Embeds the pair of checks
`'str_replace_editor create' in action` and
`re.match(r'str_replace_editor create\s+(\S+)', action)`, returning the
captured filepath.  `re.match` anchors at the start of the string, so a
successful match subsumes the substring test; the greedy `\s+` then `(\S+)`
capture the maximal whitespace run followed by the maximal non-whitespace
run (`\S+` fails exactly when nothing non-blank follows). -/
def createMatch (action : List Char) : Option (List Char) :=
  if sreCreateLit.isPrefixOf action then
    let rest := action.drop sreCreateLit.length
    let k := (rest.takeWhile isPySpace).length
    let fp := (rest.drop k).takeWhile (fun c => !isPySpace c)
    if 1 ≤ k ∧ fp ≠ [] then some fp else none
  else none

/-- `filename_keywords`: substrings of the lower-cased filename that mark
reproduction code. -/
def filename_keywords : List (List Char) :=
  [r"reproduce", r"debug", r"test_", r"_test", r"verify", r"check", r"demo",
   r"example", r"issue", r"bug", r"minimal", r"poc", r"script", r"run_",
   r"try_"].map String.data

/-- Shape of the `thought_patterns` regexes: a plain substring, an
alternation of plain substrings, or two substrings joined by `.*`
(which does not cross a newline). -/
inductive TPat where
  | lit : List Char → TPat
  | anyLit : List (List Char) → TPat
  | dotStar : List Char → List Char → TPat

/-- `re.search` for the three shapes of `TPat`. -/
def tmatch : TPat → List Char → Bool
  | TPat.lit w, s => containsSub w s
  | TPat.anyLit ws, s => ws.any (fun w => containsSub w s)
  | TPat.dotStar a b, s =>
    (List.range (s.length + 1)).any (fun i =>
      occursAtB a s i &&
      (List.range (s.length + 1)).any (fun j =>
        decide (i + a.length ≤ j) && occursAtB b s j &&
        ((s.take j).drop (i + a.length)).all (fun c => c != '\n')))

def apos : Char := Char.ofNat 39

/-- `thought_patterns`, in source order.  The alternation regexes
`verify the (bug|issue|problem|fix)` (and the `test`/`confirm` variants),
`create a (test |reproduction |)script` and `let\'?s create a script`
are expanded into their finitely many literal branches. -/
def thought_patterns : List TPat :=
  [TPat.lit (r"reproduce the issue".data),
   TPat.lit (r"reproduce the bug".data),
   TPat.lit (r"reproduce the problem".data),
   TPat.lit (r"reproduce the error".data),
   TPat.dotStar (r"test".data) (r"to reproduce".data),
   TPat.lit (r"script to reproduce".data),
   TPat.anyLit ([r"verify the bug", r"verify the issue", r"verify the problem",
     r"verify the fix"].map String.data),
   TPat.anyLit ([r"test the bug", r"test the issue", r"test the problem",
     r"test the fix"].map String.data),
   TPat.anyLit ([r"confirm the bug", r"confirm the issue", r"confirm the problem",
     r"confirm the fix"].map String.data),
   TPat.anyLit ([r"create a test script", r"create a reproduction script",
     r"create a script"].map String.data),
   TPat.anyLit [(r"let".data) ++ [apos] ++ (r"s create a script".data),
     r"lets create a script".data],
   TPat.dotStar (r"create".data) (r"to test".data),
   TPat.dotStar (r"create".data) (r"to verify".data),
   TPat.lit (r"demonstrate the issue".data),
   TPat.dotStar (r"minimal".data) (r"example".data),
   TPat.lit (r"test case".data)]

/-- `['__init__.py', 'setup.py', 'conftest.py']`, the exclusion list for the
`/testbed` location signal. -/
def excludedNames : List (List Char) :=
  [r"__init__.py", r"setup.py", r"conftest.py"].map String.data

def pyExtLit : List Char := ".py".data

def testbedPre : List Char := "/testbed/".data

/-- The portion after `/testbed/` matching `[^/]+\.py` in full: no slash,
ends in `.py`, at least one character before the extension. -/
def testbedCore (r : List Char) : Bool :=
  r.all (fun c => c != '/') && endsWithList pyExtLit r && decide (4 ≤ r.length)

/-- Embeds `re.match(r'^/testbed/[^/]+\.py$', filepath)` (the `$` also
matches just before a single trailing newline, and `[^/]` itself accepts a
newline). -/
def testbedMatch (fp : List Char) : Bool :=
  testbedPre.isPrefixOf fp &&
  (let r := fp.drop testbedPre.length
   testbedCore r ||
     (match r.getLast? with
      | some c => c == '\n' && testbedCore r.dropLast
      | none => false))

/-- The per-step decision of `locate_reproduction_code`: a recognized
`str_replace_editor create` action whose created file is named `*.py`
(case-insensitively), flagged when the filename-keyword, thought-pattern or
`/testbed`-location signal fires. -/
def isReproStep (action thought : List Char) : Bool :=
  match createMatch action with
  | none => false
  | some filepath =>
    let fl := lowerList (basename filepath)
    if !endsWithList pyExtLit fl then false
    else
      filename_keywords.any (fun k => containsSub k fl) ||
      thought_patterns.any (fun p => tmatch p (lowerList thought)) ||
      (testbedMatch filepath && !(excludedNames.contains fl))

def reproPred (s : Step) : Bool := isReproStep s.actionText s.thoughtText

/-- `locate_reproduction_code`, restricted to its core. -/
def locate_reproduction_code (traj : List Step) : List Nat :=
  idxFilter reproPred 0 traj

/-! ### Tool-use counter (`locate_tool_use`) -/

/-- `editor_commands = ['view', 'create', 'str_replace', 'insert', 'undo_edit']`. -/
def editor_commands : List (List Char) :=
  [viewLit, createLit, strReplaceLit, insertLit, undoEditLit]

/-- `shell_commands`, in source order. -/
def shell_commands : List (List Char) :=
  [r"python", r"python3", r"pip", r"pip3",
   r"cd", r"ls", r"cat", r"head", r"tail", r"less", r"more",
   r"grep", r"find", r"sed", r"awk", r"wc",
   r"echo", r"touch", r"mkdir", r"rm", r"mv", r"cp",
   r"git", r"pytest", r"tox", r"make",
   r"bash", r"sh", r"source", r"export"].map String.data

/-- Embeds `re.search(rf'^{c}\b|^\/{c}\b', p)`: `c` anchored at the start of
`p`, or at position 1 after a leading slash, followed by a word boundary
(every tracked command name ends in a word character). -/
def cmdAnchored (c p : List Char) : Bool :=
  (c.isPrefixOf p && nonWordAt p c.length) ||
  (p.headD ' ' == '/' && c.isPrefixOf (p.drop 1) && nonWordAt p (1 + c.length))

/-- Resolve one already-stripped shell sub-command to the keys it increments
(zero or one): first command of the fixed vocabulary whose anchored pattern
matches; otherwise the first-word fallback, suppressed when the first word is
empty or begins with `-`, with any leading path stripped via `basename`. -/
def resolveShell (p : List Char) : List (List Char) :=
  match shell_commands.find? (fun c => cmdAnchored c p) with
  | some c => [c]
  | none =>
    if p.isEmpty then []
    else
      let fw := firstWord p
      if fw.isEmpty then []
      else if fw.headD ' ' == '-' then []
      else [basename fw]

def sreKeyPre : List Char := "str_replace_editor_".data

def andSep : List Char := " && ".data

def pipeSep : List Char := " | ".data

/-- Concatenation of a list of key lists (the `tool_counts[k] += 1` events
of the conjunct loop, in order). -/
def flatCat : List (List α) → List α
  | [] => []
  | x :: xs => x ++ flatCat xs

/-- The ordered list of keys incremented while processing one action in
`locate_tool_use`: the `str_replace_editor` branch counts the first matching
editor operation (nothing when none matches); otherwise the stripped action
is processed per ` && `-conjunct, or as a single unit truncated at the first
` | `. -/
def actionKeys (a : List Char) : List (List Char) :=
  if a.isEmpty then []
  else if sreLit.isPrefixOf a then
    match editor_commands.find? (fun c => editorOpSearch c TailReq.wb a) with
    | some c => [sreKeyPre ++ c]
    | none => []
  else
    let s := stripChars a
    if containsSub andSep s then
      flatCat ((splitOnSub andSep s).map (fun part => resolveShell (stripChars part)))
    else
      let s2 := if containsSub pipeSep s then stripChars ((splitOnSub pipeSep s).headD []) else s
      resolveShell s2

/-- The ordered sequence of `tool_counts` increment events over a whole
trajectory. -/
def stepIncrements : List Step → List (List Char)
  | [] => []
  | s :: rest => actionKeys s.actionText ++ stepIncrements rest

/-- `locate_tool_use`, restricted to its core, viewed as the function from a
tool name to its count: the Python dict maps each key to the number of
`tool_counts[key] = tool_counts.get(key, 0) + 1` events, i.e. to the number
of occurrences of the key in `stepIncrements`. -/
def locate_tool_use (traj : List Step) (tool : List Char) : Nat :=
  (stepIncrements traj).count tool

/-! ### Generic lemmas about the index-collecting loop -/

theorem idxFilter_mem_intro (p : Step → Bool) :
    ∀ (l : List Step) (n i : Nat), i < l.length → p (stepAt l i) = true →
      n + i ∈ idxFilter p n l := by
  intro l
  induction l with
  | nil => intro n i h; simp at h
  | cons s rest ih =>
    intro n i hlt hp
    cases i with
    | zero =>
      have hps : p s = true := hp
      simp [idxFilter, hps]
    | succ i =>
      have hp' : p (stepAt rest i) = true := hp
      have hlt' : i < rest.length := Nat.lt_of_succ_lt_succ hlt
      have hmem := ih (n + 1) i hlt' hp'
      have heq : n + (i + 1) = (n + 1) + i := by omega
      rw [heq]
      cases hps : p s with
      | true => simp [idxFilter, hps, hmem]
      | false => simp [idxFilter, hps, hmem]

theorem idxFilter_mem_elim (p : Step → Bool) :
    ∀ (l : List Step) (n j : Nat), j ∈ idxFilter p n l →
      ∃ i, i < l.length ∧ j = n + i ∧ p (stepAt l i) = true := by
  intro l
  induction l with
  | nil => intro n j h; simp [idxFilter] at h
  | cons s rest ih =>
    intro n j hmem
    have hstep : ∀ j', j' ∈ idxFilter p (n + 1) rest →
        ∃ i, i < (s :: rest).length ∧ j' = n + i ∧ p (stepAt (s :: rest) i) = true := by
      intro j' hj'
      obtain ⟨i, hi, hji, hpi⟩ := ih (n + 1) j' hj'
      exact ⟨i + 1, by simpa using Nat.succ_lt_succ hi, by omega, hpi⟩
    cases hps : p s with
    | true =>
      simp only [idxFilter, hps, if_pos] at hmem
      rcases List.mem_cons.mp hmem with hj | hj
      · exact ⟨0, by simp, by omega, hps⟩
      · exact hstep j hj
    | false =>
      simp only [idxFilter, hps] at hmem
      exact hstep j hmem

theorem idxFilter_lower_bound (p : Step → Bool) :
    ∀ (l : List Step) (n j : Nat), j ∈ idxFilter p n l → n ≤ j := by
  intro l
  induction l with
  | nil => intro n j h; simp [idxFilter] at h
  | cons s rest ih =>
    intro n j hmem
    cases hps : p s with
    | true =>
      simp only [idxFilter, hps, if_pos] at hmem
      rcases List.mem_cons.mp hmem with hj | hj
      · omega
      · have := ih (n + 1) j hj; omega
    | false =>
      simp only [idxFilter, hps] at hmem
      have := ih (n + 1) j hmem; omega

theorem idxFilter_pairwise (p : Step → Bool) :
    ∀ (l : List Step) (n : Nat), List.Pairwise (· < ·) (idxFilter p n l) := by
  intro l
  induction l with
  | nil => intro n; simp [idxFilter]
  | cons s rest ih =>
    intro n
    cases hps : p s with
    | true =>
      simp only [idxFilter, hps, if_pos]
      exact List.Pairwise.cons
        (fun j hj => Nat.lt_of_lt_of_le (Nat.lt_succ_self n)
          (idxFilter_lower_bound p rest (n + 1) j hj))
        (ih (n + 1))
    | false =>
      simp only [idxFilter, hps]
      exact ih (n + 1)

theorem idxFilter_congr (p : Step → Bool) (s s' : Step) (hss : p s = p s') :
    ∀ (pre : List Step) (n : Nat) (post : List Step),
      idxFilter p n (pre ++ s :: post) = idxFilter p n (pre ++ s' :: post) := by
  intro pre
  induction pre with
  | nil =>
    intro n post
    simp only [List.nil_append, idxFilter, hss]
  | cons a t ih =>
    intro n post
    simp only [List.cons_append, idxFilter, List.append_eq]
    rw [ih (n + 1) post]

/-! ### C3: classifier outputs are strictly increasing and in range -/

/-- C3: for every input trajectory, the reproduction classifier's and the
search classifier's index sequences are strictly increasing, duplicate-free,
and every element is a valid 0-based position in the trajectory. -/
theorem classifier_indices_strictly_increasing_and_valid (traj : List Step) :
    (List.Pairwise (· < ·) (locate_reproduction_code traj) ∧
     (locate_reproduction_code traj).Nodup ∧
     ∀ i ∈ locate_reproduction_code traj, i < traj.length) ∧
    (List.Pairwise (· < ·) (locate_search traj) ∧
     (locate_search traj).Nodup ∧
     ∀ i ∈ locate_search traj, i < traj.length) := by
  have hgen : ∀ (p : Step → Bool),
      List.Pairwise (· < ·) (idxFilter p 0 traj) ∧
      (idxFilter p 0 traj).Nodup ∧
      ∀ i ∈ idxFilter p 0 traj, i < traj.length := by
    intro p
    refine ⟨idxFilter_pairwise p traj 0, ?_, ?_⟩
    · exact (idxFilter_pairwise p traj 0).imp Nat.ne_of_lt
    · intro i hi
      obtain ⟨i', hi', hji, _⟩ := idxFilter_mem_elim p traj 0 i hi
      omega
  exact ⟨hgen reproPred, hgen searchPred⟩

/-! ### C2: modification precedence suppresses search classification -/

/-- C2: a step whose action matches one of the file-editor
content-modification patterns never appears in the search classifier's
output, whatever other search signals its action carries. -/
theorem modification_step_never_in_search_output (traj : List Step) (i : Nat)
    (h : isModification ((stepAt traj i).actionText) = true) :
    i ∉ locate_search traj := by
  intro hmem
  obtain ⟨i', hi', heq, hp⟩ := idxFilter_mem_elim searchPred traj 0 i hmem
  have hii : i' = i := by omega
  subst hii
  simp [searchPred, isSearchStep, h] at hp

/-- Witness for C2 at the specification's own example action. -/
theorem modification_step_never_in_search_output_witness :
    isModification ((stepAt
        [⟨some ("str_replace_editor create /workspace/a.py".data), none⟩]
        0).actionText) = true ∧
    0 ∉ locate_search
        [⟨some ("str_replace_editor create /workspace/a.py".data), none⟩] :=
  ⟨by decide,
   modification_step_never_in_search_output
     [⟨some ("str_replace_editor create /workspace/a.py".data), none⟩] 0
     (by decide)⟩

/-! ### C10: SWE-Agent search names classify even as mere mentions -/

/-- C10: for every step not excluded as a modification, the search classifier
includes the step whenever its action starts with `find_file`, `search_file`
or `search_dir`, or contains one of those names preceded by a single space
anywhere in the action text — even when the name is merely an argument of a
different command. -/
theorem swe_search_name_mention_classifies (traj : List Step) (i : Nat)
    (hlen : i < traj.length)
    (hmod : isModification ((stepAt traj i).actionText) = false)
    (hswe : sweSearchHit ((stepAt traj i).actionText) = true) :
    i ∈ locate_search traj := by
  have hp : searchPred (stepAt traj i) = true := by
    simp [searchPred, isSearchStep, hmod, hswe]
  have := idxFilter_mem_intro searchPred traj 0 i hlen hp
  simpa using this

/-- Witness for C10: `echo find_file` is classified as a search step. -/
theorem swe_search_name_mention_classifies_witness :
    (0 < ([⟨some ("echo find_file".data), none⟩] : List Step).length ∧
     isModification ((stepAt [⟨some ("echo find_file".data), none⟩] 0).actionText) = false ∧
     sweSearchHit ((stepAt [⟨some ("echo find_file".data), none⟩] 0).actionText) = true) ∧
    0 ∈ locate_search [⟨some ("echo find_file".data), none⟩] :=
  ⟨⟨by decide, by decide, by decide⟩,
   swe_search_name_mention_classifies [⟨some ("echo find_file".data), none⟩] 0
     (by decide) (by decide) (by decide)⟩

/-! ### C8: absent fields are read as empty text -/

theorem stepIncrements_congr (s s' : Step)
    (hss : actionKeys s.actionText = actionKeys s'.actionText) :
    ∀ (pre post : List Step),
      stepIncrements (pre ++ s :: post) = stepIncrements (pre ++ s' :: post) := by
  intro pre post
  induction pre with
  | nil => simp only [List.nil_append, stepIncrements, hss]
  | cons a t ih => simp only [List.cons_append, stepIncrements, List.append_eq] at ih ⊢; rw [ih]

/-- C8: a step record whose `action` or `thought` key is absent is treated by
all three classifiers exactly as a step carrying empty text in that field
(all classifiers are total functions — absence never raises). -/
theorem absent_field_treated_as_empty_text (pre post : List Step)
    (ac th : Option (List Char)) :
    (locate_reproduction_code (pre ++ (⟨none, th⟩ : Step) :: post) =
       locate_reproduction_code (pre ++ (⟨some [], th⟩ : Step) :: post)) ∧
    (locate_reproduction_code (pre ++ (⟨ac, none⟩ : Step) :: post) =
       locate_reproduction_code (pre ++ (⟨ac, some []⟩ : Step) :: post)) ∧
    (locate_search (pre ++ (⟨none, th⟩ : Step) :: post) =
       locate_search (pre ++ (⟨some [], th⟩ : Step) :: post)) ∧
    (locate_search (pre ++ (⟨ac, none⟩ : Step) :: post) =
       locate_search (pre ++ (⟨ac, some []⟩ : Step) :: post)) ∧
    (∀ tool, locate_tool_use (pre ++ (⟨none, th⟩ : Step) :: post) tool =
       locate_tool_use (pre ++ (⟨some [], th⟩ : Step) :: post) tool) ∧
    (∀ tool, locate_tool_use (pre ++ (⟨ac, none⟩ : Step) :: post) tool =
       locate_tool_use (pre ++ (⟨ac, some []⟩ : Step) :: post) tool) := by
  refine ⟨?_, ?_, ?_, ?_, ?_, ?_⟩
  · exact idxFilter_congr reproPred ⟨none, th⟩ ⟨some [], th⟩ rfl pre 0 post
  · exact idxFilter_congr reproPred ⟨ac, none⟩ ⟨ac, some []⟩ rfl pre 0 post
  · exact idxFilter_congr searchPred ⟨none, th⟩ ⟨some [], th⟩ rfl pre 0 post
  · exact idxFilter_congr searchPred ⟨ac, none⟩ ⟨ac, some []⟩ rfl pre 0 post
  · intro tool
    unfold locate_tool_use
    rw [stepIncrements_congr ⟨none, th⟩ ⟨some [], th⟩ rfl pre post]
  · intro tool
    unfold locate_tool_use
    rw [stepIncrements_congr ⟨ac, none⟩ ⟨ac, some []⟩ rfl pre post]

/-! ### C5: only `.py` create actions are ever flagged as reproduction -/

/-- C5: a step appears in the reproduction classifier's output only when its
action is a recognized `str_replace_editor create` action and the created
file's (lower-cased) name ends in `.py`; everything else is never flagged. -/
theorem repro_flag_requires_py_create (traj : List Step) (i : Nat)
    (h : i ∈ locate_reproduction_code traj) :
    ∃ fp, createMatch ((stepAt traj i).actionText) = some fp ∧
      endsWithList pyExtLit (lowerList (basename fp)) = true := by
  obtain ⟨i', hi', heq, hp⟩ := idxFilter_mem_elim reproPred traj 0 i h
  have hii : i = i' := by omega
  subst hii
  unfold reproPred isReproStep at hp
  cases hcm : createMatch ((stepAt traj i).actionText) with
  | none => rw [hcm] at hp; simp at hp
  | some fp =>
    rw [hcm] at hp
    refine ⟨fp, rfl, ?_⟩
    cases hend : endsWithList pyExtLit (lowerList (basename fp)) with
    | true => rfl
    | false => simp [hend] at hp

/-- Witness for C5: a flagged step's action indeed parses as a `.py` create. -/
theorem repro_flag_requires_py_create_witness :
    0 ∈ locate_reproduction_code
        [⟨some ("str_replace_editor create /testbed/reproduce.py".data), none⟩] ∧
    ∃ fp, createMatch ((stepAt
        [⟨some ("str_replace_editor create /testbed/reproduce.py".data), none⟩]
        0).actionText) = some fp ∧
      endsWithList pyExtLit (lowerList (basename fp)) = true :=
  ⟨by decide,
   repro_flag_requires_py_create
     [⟨some ("str_replace_editor create /testbed/reproduce.py".data), none⟩] 0
     (by decide)⟩

/-! ### C6: tool-use counts accumulate additively -/

theorem stepIncrements_append (t1 t2 : List Step) :
    stepIncrements (t1 ++ t2) = stepIncrements t1 ++ stepIncrements t2 := by
  induction t1 with
  | nil => rfl
  | cons s rest ih => simp [stepIncrements, ih]

def cdPythonStep : Step := ⟨some ("cd /workspace && python script.py".data), none⟩

/-- C6: `cd /workspace && python script.py` contributes one count to `cd` and
one to `python` (one per `&&`-conjunct); repeating the action doubles the
counts; and in general the counter over a concatenation of two step
sequences is the pointwise sum of the counters of the parts. -/
theorem tool_counts_additive :
    actionKeys ("cd /workspace && python script.py".data) =
      [("cd".data), ("python".data)] ∧
    locate_tool_use [cdPythonStep, cdPythonStep] ("cd".data) = 2 ∧
    locate_tool_use [cdPythonStep, cdPythonStep] ("python".data) = 2 ∧
    ∀ (t1 t2 : List Step) (tool : List Char),
      locate_tool_use (t1 ++ t2) tool =
        locate_tool_use t1 tool + locate_tool_use t2 tool := by
  refine ⟨by decide, by decide, by decide, ?_⟩
  intro t1 t2 tool
  unfold locate_tool_use
  rw [stepIncrements_append, List.count_append]

/-! ### C7: a piped action without conjunction counts only its first stage -/

theorem resolveShell_length_le (p : List Char) : (resolveShell p).length ≤ 1 := by
  unfold resolveShell
  cases shell_commands.find? (fun c => cmdAnchored c p) with
  | some c => simp
  | none =>
    cases h1 : p.isEmpty with
    | true => simp [h1]
    | false =>
      cases h2 : (firstWord p).isEmpty with
      | true => simp [h1, h2]
      | false =>
        cases h3 : (firstWord p).headD ' ' == '-' with
        | true => simp at h3; simp [h1, h2, h3]
        | false => simp at h3; simp [h1, h2, h3]

theorem resolveShell_length_one (p : List Char)
    (hfw : (firstWord p).isEmpty = false)
    (hd : ((firstWord p).headD ' ' == '-') = false)
    (hp : p.isEmpty = false) :
    (resolveShell p).length = 1 := by
  unfold resolveShell
  cases hfind : shell_commands.find? (fun c => cmdAnchored c p) with
  | some c => simp
  | none => simp at hd; simp [hp, hfw, hd]

/-- C7: when a step's action contains the pipe separator and no conjunction
separator (and is not an editor invocation), the counter resolves exactly the
stripped first pipe stage, so commands in later stages contribute nothing;
at most one key is incremented for such an action. -/
theorem pipe_counts_only_first_stage (a : List Char)
    (hne : a.isEmpty = false)
    (hed : sreLit.isPrefixOf a = false)
    (hand : containsSub andSep (stripChars a) = false)
    (hpipe : containsSub pipeSep (stripChars a) = true) :
    actionKeys a =
      resolveShell (stripChars ((splitOnSub pipeSep (stripChars a)).headD [])) ∧
    (actionKeys a).length ≤ 1 := by
  have hkeys : actionKeys a =
      resolveShell (stripChars ((splitOnSub pipeSep (stripChars a)).headD [])) := by
    unfold actionKeys
    simp [hne, hed, hand, hpipe]
  exact ⟨hkeys, by rw [hkeys]; exact resolveShell_length_le _⟩

/-- Witness for C7: `echo hi | grep foo` resolves only its first stage
(`grep` in the second stage is not counted). -/
theorem pipe_counts_only_first_stage_witness :
    (("echo hi | grep foo".data).isEmpty = false ∧
     sreLit.isPrefixOf ("echo hi | grep foo".data) = false ∧
     containsSub andSep (stripChars ("echo hi | grep foo".data)) = false ∧
     containsSub pipeSep (stripChars ("echo hi | grep foo".data)) = true) ∧
    (actionKeys ("echo hi | grep foo".data) =
       resolveShell (stripChars
         ((splitOnSub pipeSep (stripChars ("echo hi | grep foo".data))).headD [])) ∧
     (actionKeys ("echo hi | grep foo".data)).length ≤ 1) :=
  ⟨⟨by decide, by decide, by decide, by decide⟩,
   pipe_counts_only_first_stage ("echo hi | grep foo".data)
     (by decide) (by decide) (by decide) (by decide)⟩

/-! ### C1 (corrected): attribution is per resolution unit, not per action -/

/-- C1 as stated is false on the code.  `str_replace_editor open /a.py` is a
non-empty action whose first whitespace-delimited token does not begin with a
dash, yet the tool-use counter makes zero attributions for it (the editor
branch has no fallback); and `cd /a && ls` increments two keys, not exactly
one. -/
theorem exactly_one_attribution_counterexample :
    (("str_replace_editor open /a.py".data).isEmpty = false ∧
     ((firstWord ("str_replace_editor open /a.py".data)).headD ' ' == '-') = false ∧
     stepIncrements [⟨some ("str_replace_editor open /a.py".data), none⟩] = []) ∧
    (stepIncrements [⟨some ("cd /a && ls".data), none⟩]).length = 2 := by
  decide

/-- The stripped single resolution unit of a non-conjunction shell action:
the whole stripped action, truncated at the first ` | ` when one occurs. -/
def pipeTarget (a : List Char) : List Char :=
  if containsSub pipeSep (stripChars a) then
    stripChars ((splitOnSub pipeSep (stripChars a)).headD [])
  else stripChars a

theorem flatCat_map_length_le {α β : Type} (f : α → List β)
    (hf : ∀ x, (f x).length ≤ 1) (ps : List α) :
    (flatCat (ps.map f)).length ≤ ps.length := by
  induction ps with
  | nil => simp [flatCat]
  | cons x xs ih =>
    simp only [List.map_cons, flatCat, List.length_append, List.length_cons]
    have := hf x
    omega

/-- C1 amended: attribution is per resolution unit rather than per action.
An action starting with the editor prefix increments at most one key (zero
when none of the five editor-operation patterns matches); an `&&`-chained
action increments at most one key per conjunct; any other action increments
at most one key, and exactly one when its pipe-truncated stripped text is
non-blank and its first whitespace-delimited token is present and does not
begin with a dash. -/
theorem attribution_per_resolution_unit (a : List Char) :
    (sreLit.isPrefixOf a = true → (actionKeys a).length ≤ 1) ∧
    (sreLit.isPrefixOf a = false → containsSub andSep (stripChars a) = true →
      (actionKeys a).length ≤ (splitOnSub andSep (stripChars a)).length) ∧
    (sreLit.isPrefixOf a = false → containsSub andSep (stripChars a) = false →
      (actionKeys a).length ≤ 1 ∧
      (a.isEmpty = false → (pipeTarget a).isEmpty = false →
       (firstWord (pipeTarget a)).isEmpty = false →
       ((firstWord (pipeTarget a)).headD ' ' == '-') = false →
       (actionKeys a).length = 1)) := by
  refine ⟨?_, ?_, ?_⟩
  · intro hpre
    cases hae : a.isEmpty with
    | true =>
      have ha : a = [] := by simpa using hae
      subst ha
      simp [actionKeys]
    | false =>
      unfold actionKeys
      simp only [hae, hpre, Bool.false_eq_true, if_false, if_true]
      cases hfind : editor_commands.find? (fun c => editorOpSearch c TailReq.wb a) with
      | some c => simp [hfind]
      | none => simp [hfind]
  · intro hpre hand
    cases hae : a.isEmpty with
    | true =>
      have ha : a = [] := by simpa using hae
      subst ha
      simp [actionKeys]
    | false =>
      have hkeys : actionKeys a =
          flatCat ((splitOnSub andSep (stripChars a)).map
            (fun part => resolveShell (stripChars part))) := by
        unfold actionKeys
        simp [hae, hpre, hand]
      rw [hkeys]
      exact flatCat_map_length_le _ (fun x => resolveShell_length_le _) _
  · intro hpre hand
    have hmain : a.isEmpty = false → actionKeys a = resolveShell (pipeTarget a) := by
      intro hae
      unfold actionKeys pipeTarget
      simp [hae, hpre, hand]
    constructor
    · cases hae : a.isEmpty with
      | true =>
        have ha : a = [] := by simpa using hae
        subst ha
        simp [actionKeys]
      | false =>
        rw [hmain hae]
        exact resolveShell_length_le _
    · intro hae h1 h2 h3
      rw [hmain hae]
      exact resolveShell_length_one _ h2 h3 h1

/-- Witness for the amended C1: `python x.py` receives exactly one
attribution. -/
theorem attribution_per_resolution_unit_witness :
    (sreLit.isPrefixOf ("python x.py".data) = false ∧
     containsSub andSep (stripChars ("python x.py".data)) = false ∧
     ("python x.py".data).isEmpty = false ∧
     (pipeTarget ("python x.py".data)).isEmpty = false ∧
     (firstWord (pipeTarget ("python x.py".data))).isEmpty = false ∧
     ((firstWord (pipeTarget ("python x.py".data))).headD ' ' == '-') = false) ∧
    (actionKeys ("python x.py".data)).length = 1 :=
  ⟨⟨by decide, by decide, by decide, by decide, by decide, by decide⟩,
   ((attribution_per_resolution_unit ("python x.py".data)).2.2 (by decide)
       (by decide)).2 (by decide) (by decide) (by decide) (by decide)⟩

/-! ### C9 (corrected): shell patterns anchor on regex word boundaries,
not on whitespace-delimited tokens -/

/-- Python `str.split()` with no separator: the maximal non-whitespace runs,
via an accumulator for the current run. -/
def splitWsAux : List Char → List Char → List (List Char)
  | [], acc => if acc.isEmpty then [] else [acc.reverse]
  | c :: cs, acc =>
    if isPySpace c then
      (if acc.isEmpty then [] else [acc.reverse]) ++ splitWsAux cs []
    else splitWsAux cs (c :: acc)

def splitWs (s : List Char) : List (List Char) := splitWsAux s []

/-- C9 as stated is false on the code: in the action `foo.cat bar` the name
`cat` occurs only inside the longer whitespace-delimited token `foo.cat`,
yet the `\bcat\s+` pattern fires (the `.` is a non-word character, hence a
regex word boundary) and the step is classified as a search step. -/
theorem word_boundary_token_counterexample :
    locate_search [⟨some ("foo.cat bar".data), none⟩] = [0] ∧
    ("cat".data) ∉ splitWs ("foo.cat bar".data) := by decide

theorem boundaryBefore_cases {s : List Char} {i : Nat}
    (h : boundaryBefore s i = true) :
    i = 0 ∨ isWordChar (s.getD (i - 1) ' ') = false := by
  unfold boundaryBefore at h
  rcases Bool.or_eq_true_iff.mp h with h1 | h1
  · exact Or.inl (by simpa using h1)
  · exact Or.inr (by simpa using h1)

theorem wsAt_head {s : List Char} {n : Nat} (h : wsAt s n = true) :
    ∃ d, (s.drop n).head? = some d ∧ isPySpace d = true := by
  unfold wsAt at h
  cases hd : s.drop n with
  | nil => rw [hd] at h; simp at h
  | cons d t => rw [hd] at h; exact ⟨d, by simp [hd], h⟩

theorem takeWhile_pos_head {q : Char → Bool} {l : List Char}
    (h : 1 ≤ (l.takeWhile q).length) : ∃ d, l.head? = some d ∧ q d = true := by
  cases l with
  | nil => simp [List.takeWhile] at h
  | cons c t =>
    cases hq : q c with
    | true => exact ⟨c, rfl, hq⟩
    | false => simp [List.takeWhile_cons, hq] at h

/-- C9 amended: each shell search pattern classifies a step only when the
command name occurs at a regex word boundary — at the start of the action or
right after a non-word character — followed by a whitespace character (for
the bare-`ls` pattern, at the end of the action, possibly before a final
newline; for the `git` patterns the requirement is stated for the `git`
token).  An occurrence embedded in a longer run of word characters (such as
`cat` in `catalog` or `find` in `find_results`) never classifies the step. -/
theorem shell_patterns_anchor_on_word_boundary (a : List Char) :
    (∀ c ∈ bashCmdWsNames, bashCmdWs c a = true →
       ∃ i, (i = 0 ∨ isWordChar (a.getD (i - 1) ' ') = false) ∧
         c <+: a.drop i ∧
         ∃ d, (a.drop (i + c.length)).head? = some d ∧ isPySpace d = true) ∧
    (bashLsEnd a = true →
       ∃ i, (i = 0 ∨ isWordChar (a.getD (i - 1) ' ') = false) ∧
         ("ls".data) <+: a.drop i ∧
         (a.drop (i + 2) = [] ∨ a.drop (i + 2) = ['\n'])) ∧
    (∀ sub ∈ gitSubNames, bashGitSub sub a = true →
       ∃ i, (i = 0 ∨ isWordChar (a.getD (i - 1) ' ') = false) ∧
         gitLit <+: a.drop i ∧
         ∃ d, (a.drop (i + gitLit.length)).head? = some d ∧ isPySpace d = true) ∧
    locate_search [⟨some ("catalog file".data), none⟩] = [] ∧
    locate_search [⟨some ("find_results now".data), none⟩] = [] := by
  refine ⟨?_, ?_, ?_, by decide, by decide⟩
  · intro c _ h
    unfold bashCmdWs at h
    obtain ⟨i, _, hpred⟩ := List.any_eq_true.mp h
    simp only [Bool.and_eq_true] at hpred
    obtain ⟨⟨hb, hp⟩, hw⟩ := hpred
    exact ⟨i, boundaryBefore_cases hb, List.isPrefixOf_iff_prefix.mp hp, wsAt_head hw⟩
  · intro h
    unfold bashLsEnd at h
    obtain ⟨i, _, hpred⟩ := List.any_eq_true.mp h
    simp only [Bool.and_eq_true, Bool.or_eq_true, decide_eq_true_eq] at hpred
    obtain ⟨⟨hb, hp⟩, hend⟩ := hpred
    have hp' : ("ls".data) <+: a.drop i := by
      have : ("ls".data).isPrefixOf (a.drop i) = true := hp
      exact List.isPrefixOf_iff_prefix.mp this
    exact ⟨i, boundaryBefore_cases hb, hp', hend⟩
  · intro sub _ h
    unfold bashGitSub at h
    obtain ⟨i, _, hpred⟩ := List.any_eq_true.mp h
    simp only [Bool.and_eq_true, decide_eq_true_eq] at hpred
    obtain ⟨⟨hb, hp⟩, ⟨hk1, hsub⟩, hws⟩ := hpred
    exact ⟨i, boundaryBefore_cases hb, List.isPrefixOf_iff_prefix.mp hp,
      takeWhile_pos_head hk1⟩

/-- Witness for the amended C9: the `grep` pattern fires on
`grep -rn TODO .` and the boundary occurrence exists. -/
theorem shell_patterns_anchor_word_boundary_witness :
    (("grep".data) ∈ bashCmdWsNames ∧
     bashCmdWs ("grep".data) ("grep -rn TODO .".data) = true) ∧
    (∃ i, (i = 0 ∨ isWordChar (("grep -rn TODO .".data).getD (i - 1) ' ') = false) ∧
       ("grep".data) <+: ("grep -rn TODO .".data).drop i ∧
       ∃ d, (("grep -rn TODO .".data).drop (i + ("grep".data).length)).head? = some d ∧
         isPySpace d = true) :=
  ⟨⟨by decide, by decide⟩,
   (shell_patterns_anchor_on_word_boundary ("grep -rn TODO .".data)).1 ("grep".data)
     (by decide) (by decide)⟩

/-! ### C4: the `/testbed` location signal suffices, except for the
exclusion list -/

theorem createMatch_no_space {a fp : List Char} (h : createMatch a = some fp) :
    ∀ c ∈ fp, isPySpace c = false := by
  unfold createMatch at h
  split at h
  · dsimp only at h
    split at h
    · intro c hc
      have hfp := Option.some.inj h
      rw [← hfp] at hc
      have := List.mem_takeWhile_imp hc
      simpa using this
    · exact absurd h (by simp)
  · exact absurd h (by simp)

theorem takeWhile_append_of_all (q : Char → Bool) (x : Char) (hx : q x = false) :
    ∀ (l1 l2 : List Char), (∀ c ∈ l1, q c = true) →
      (l1 ++ x :: l2).takeWhile q = l1 := by
  intro l1
  induction l1 with
  | nil => intro l2 _; simp [List.takeWhile_cons, hx]
  | cons c t ih =>
    intro l2 hall
    have hc : q c = true := hall c (List.mem_cons_self c t)
    simp only [List.cons_append, List.takeWhile_cons, hc, if_true]
    rw [ih l2 (fun d hd => hall d (List.mem_cons_of_mem c hd))]

theorem basename_append (u r : List Char) (hr : ∀ c ∈ r, (c != '/') = true) :
    basename (u ++ '/' :: r) = r := by
  unfold basename
  have hrev : (u ++ '/' :: r).reverse = r.reverse ++ '/' :: u.reverse := by
    simp [List.reverse_append]
  rw [hrev]
  rw [takeWhile_append_of_all (fun c => c != '/') '/' (by decide) r.reverse u.reverse
    (fun c hc => hr c (List.mem_reverse.mp hc))]
  exact List.reverse_reverse r

/-- With a whitespace-free filepath (as `(\S+)` always yields), a location
match is in particular a prefix match of `/testbed/` whose remainder
satisfies `[^/]+\.py` exactly. -/
theorem testbedMatch_decompose {fp : List Char}
    (hns : ∀ c ∈ fp, isPySpace c = false)
    (h : testbedMatch fp = true) :
    testbedPre.isPrefixOf fp = true ∧ testbedCore (fp.drop testbedPre.length) = true := by
  unfold testbedMatch at h
  simp only [Bool.and_eq_true] at h
  obtain ⟨hpre, hrest⟩ := h
  refine ⟨hpre, ?_⟩
  rcases Bool.or_eq_true_iff.mp hrest with hcore | hnl
  · exact hcore
  · exfalso
    rcases hlast : (fp.drop testbedPre.length).getLast? with _ | c
    · rw [hlast] at hnl; simp at hnl
    · rw [hlast] at hnl
      simp only [Bool.and_eq_true, beq_iff_eq] at hnl
      have hmem : c ∈ fp.drop testbedPre.length := by
        have h2 : ∃ hh, c = (fp.drop testbedPre.length).getLast hh :=
          List.mem_getLast?_eq_getLast (by simp [Option.mem_def, hlast])
        obtain ⟨hh, rfl⟩ := h2
        exact List.getLast_mem hh
      have : isPySpace c = false := hns c (List.mem_of_mem_drop hmem)
      rw [hnl.1] at this
      simp [isPySpace] at this

/-- Any `createMatch` filepath that matches the `/testbed` location pattern
and whose lower-cased filename avoids the exclusion list is classified as
reproduction code, whatever the thought says and whether or not a filename
keyword occurs. -/
theorem isReproStep_of_location (action thought fp : List Char)
    (hcm : createMatch action = some fp)
    (hloc : testbedMatch fp = true)
    (hexc : excludedNames.contains (lowerList (basename fp)) = false) :
    isReproStep action thought = true := by
  obtain ⟨hpre, hcore⟩ := testbedMatch_decompose (createMatch_no_space hcm) hloc
  obtain ⟨t, ht⟩ := List.isPrefixOf_iff_prefix.mp hpre
  have hdrop : fp.drop testbedPre.length = t := by
    rw [← ht]; exact List.drop_left testbedPre t
  rw [hdrop] at hcore
  unfold testbedCore at hcore
  simp only [Bool.and_eq_true, decide_eq_true_eq] at hcore
  obtain ⟨⟨hall, hend⟩, _⟩ := hcore
  have hbase : basename fp = t := by
    have hfp2 : fp = ("/testbed".data) ++ '/' :: t := by
      rw [← ht]; rfl
    rw [hfp2]
    exact basename_append ("/testbed".data) t (List.all_eq_true.mp hall)
  have hlowend : endsWithList pyExtLit (lowerList (basename fp)) = true := by
    rw [hbase]
    obtain ⟨w, hw⟩ := List.isSuffixOf_iff_suffix.mp hend
    apply List.isSuffixOf_iff_suffix.mpr
    refine ⟨lowerList w, ?_⟩
    have : lowerList (w ++ pyExtLit) = lowerList w ++ pyExtLit := by
      unfold lowerList
      rw [List.map_append]
      rfl
    rw [← hw, this]
  unfold isReproStep
  rw [hcm]
  simp only [hlowend, Bool.not_true, Bool.false_eq_true, if_false, hloc, hexc,
    Bool.not_false, Bool.and_true, Bool.true_and, Bool.and_self, Bool.or_true]

/-- C4: a create-action for a `.py` file placed as a single path component
directly under the fixed workspace root (`/testbed` in this code) is always
included by the reproduction classifier via the location signal, unless its
filename is on the exclusion list — no filename keyword or thought pattern
is needed.  The specification's two non-examples (`/workspace/helper.py`
with no keyword and no qualifying thought, and `/workspace/setup.py` with no
other signal) are indeed excluded. -/
theorem location_signal_classifies (traj : List Step) (i : Nat) (fp : List Char)
    (hlen : i < traj.length)
    (hcm : createMatch ((stepAt traj i).actionText) = some fp)
    (hloc : testbedMatch fp = true)
    (hexc : excludedNames.contains (lowerList (basename fp)) = false) :
    i ∈ locate_reproduction_code traj ∧
    locate_reproduction_code
      [⟨some ("str_replace_editor create /workspace/helper.py".data), none⟩] = [] ∧
    locate_reproduction_code
      [⟨some ("str_replace_editor create /workspace/setup.py".data), none⟩] = [] := by
  refine ⟨?_, by decide, by decide⟩
  have hp : reproPred (stepAt traj i) = true :=
    isReproStep_of_location _ _ _ hcm hloc hexc
  have := idxFilter_mem_intro reproPred traj 0 i hlen hp
  simpa using this

/-- Witness for C4: `/testbed/foo.py` carries no filename keyword and the
thought is empty, yet the step is classified via the location signal. -/
theorem location_signal_classifies_witness :
    (0 < ([⟨some ("str_replace_editor create /testbed/foo.py".data), none⟩] : List Step).length ∧
     createMatch ((stepAt [⟨some ("str_replace_editor create /testbed/foo.py".data), none⟩]
       0).actionText) = some ("/testbed/foo.py".data) ∧
     testbedMatch ("/testbed/foo.py".data) = true ∧
     excludedNames.contains (lowerList (basename ("/testbed/foo.py".data))) = false) ∧
    0 ∈ locate_reproduction_code
      [⟨some ("str_replace_editor create /testbed/foo.py".data), none⟩] :=
  ⟨⟨by decide, by decide, by decide, by decide⟩,
   (location_signal_classifies
     [⟨some ("str_replace_editor create /testbed/foo.py".data), none⟩] 0
     ("/testbed/foo.py".data) (by decide) (by decide) (by decide) (by decide)).1⟩

end TrajAnalysis
